import Mathlib

/-!
Verification of the length-only decompressor from `year2016/day09/solution.py`.

The source works on Python `str` values with arbitrary-precision integers.
We embed strings as `List Char` (wrapped in `String` for the public entry
points), Python integers as `Int` (arithmetic results may be negative) and
`Nat` (indices, parsed digit runs; Python ints are unbounded, so no modular
reduction occurs anywhere).

The scanner `get_markers` in the source repeatedly calls
`re.search(r"\((\d+)x(\d+)\)", s, pos)`: the leftmost full match at or after
`pos`, with greedy digit runs.  Because the regex's digit groups are each
followed by a non-digit literal (`x`, `)`), greedy maximal-munch scanning is
exactly equivalent to the backtracking semantics; `findMarker` below embeds
this as a character-level scan.  Recursion in `part2` is embedded with a fuel
parameter equal to the string length (proved sufficient below), keeping every
definition structurally recursive and kernel-executable.
-/

namespace Day09

/-- Embeds the `Marker` dataclass: `start`/`end` are the match's absolute
offsets (`end` exclusive, renamed `end_` since `end` is a Lean keyword),
`n_chars`/`n_reps` the two parsed integers. -/
structure Marker where
  start : Nat
  end_ : Nat
  n_chars : Nat
  n_reps : Nat
deriving DecidableEq, Repr

/-- The derived `length` field set in `__post_init__`: `end - start`. -/
def Marker.length (m : Marker) : Nat := m.end_ - m.start

/-- Value of a decimal digit run, as computed by Python's `int(...)` on the
captured group (digits are ASCII `0`-`9`). -/
def digitsVal (ds : List Char) : Nat :=
  ds.foldl (fun a c => a * 10 + (c.toNat - 48)) 0

/-- Split off the maximal leading run of decimal digits (the greedy `\d+`). -/
def grabDigits : List Char → List Char × List Char
  | [] => ([], [])
  | c :: rest =>
    if c.isDigit then
      let p := grabDigits rest
      (c :: p.1, p.2)
    else ([], c :: rest)

/-- Continuation of the marker match after both digit runs: `ds2`/`r3` are
the second digit run and the remainder, which must start with `)`. -/
def parseAfterX (ds1 ds2 r3 : List Char) : Option (Nat × Nat × Nat) :=
  match ds2, r3 with
  | [], _ => none
  | _, [] => none
  | e :: es, cp :: _ =>
    if cp = ')' then
      some (ds1.length + (e :: es).length + 3, digitsVal ds1, digitsVal (e :: es))
    else none

/-- Continuation of the marker match after `(`: `ds1`/`r1` are the first
digit run and the remainder, which must continue with `x`. -/
def parseAfterParen (ds1 r1 : List Char) : Option (Nat × Nat × Nat) :=
  match ds1, r1 with
  | [], _ => none
  | _, [] => none
  | d :: ds, x :: r2 =>
    if x = 'x' then parseAfterX (d :: ds) (grabDigits r2).1 (grabDigits r2).2
    else none

/-- Attempt to match the marker regex `\((\d+)x(\d+)\)` anchored at the head
of `l`.  On success returns `(tokenLength, n_chars, n_reps)` where
`tokenLength` is the number of characters the token occupies. -/
def parseMarkerAt (l : List Char) : Option (Nat × Nat × Nat) :=
  match l with
  | [] => none
  | c :: rest =>
    if c = '(' then parseAfterParen (grabDigits rest).1 (grabDigits rest).2
    else none

/-- Scan the suffix `l` (whose head sits at absolute offset `pos`) for the
leftmost marker token, as `re.search` does. -/
def findMarkerAux : List Char → Nat → Option Marker
  | [], _ => none
  | c :: rest, pos =>
    match parseMarkerAt (c :: rest) with
    | some (tok, ch, rp) => some ⟨pos, pos + tok, ch, rp⟩
    | none => findMarkerAux rest (pos + 1)

/-- `re.search(marker_pattern, cs, i)`: leftmost marker at or after offset
`i`, or `none`. -/
def findMarker (cs : List Char) (i : Nat) : Option Marker :=
  findMarkerAux (cs.drop i) i

/-- The `while` loop of `get_markers`: collect markers left to right, each
next search resuming at `end + chars` of the marker just found.  `fuel`
bounds the number of iterations; `getMarkersL` supplies enough. -/
def getMarkersAux : Nat → List Char → Nat → List Marker
  | 0, _, _ => []
  | fuel + 1, cs, i =>
    match findMarker cs i with
    | none => []
    | some m => m :: getMarkersAux fuel cs (m.end_ + m.n_chars)

/-- `get_markers` on a character list.  Successive search offsets grow by at
least 5 per found marker, so `cs.length + 1` iterations always suffice. -/
def getMarkersL (cs : List Char) : List Marker :=
  getMarkersAux (cs.length + 1) cs 0

/-- The Python slice `compressed_sequence[m.end : m.end + m.n_chars]`
(silently clamped at the end of the sequence, exactly as in Python). -/
def sliceL (cs : List Char) (m : Marker) : List Char :=
  (cs.drop m.end_).take m.n_chars

/-- `get_length_decompressed_marker`: net length delta contributed by one
marker, `n_chars * n_reps - n_chars - length`. -/
def get_length_decompressed_marker (m : Marker) : Int :=
  (m.n_chars : Int) * (m.n_reps : Int) - (m.n_chars : Int) - (m.length : Int)

/-- `get_length_decompressed_sequence_part1` on a character list. -/
def part1L (cs : List Char) : Int :=
  ((getMarkersL cs).map get_length_decompressed_marker).sum + (cs.length : Int)

/-- Fuelled embedding of the recursion in
`get_length_decompressed_sequence_part2`.  Each recursive call receives the
marker's (clamped) data region, which is strictly shorter than `cs`, so fuel
`cs.length` suffices (`part2F_congr` below). -/
def part2F : Nat → List Char → Int
  | 0, cs => (cs.length : Int)
  | fuel + 1, cs =>
    (cs.length : Int) +
      ((getMarkersL cs).map (fun m =>
        (m.n_reps : Int) * part2F fuel (sliceL cs m)
          - ((m.n_chars : Int) + (m.length : Int)))).sum

/-- `get_length_decompressed_sequence_part2` on a character list. -/
def part2L (cs : List Char) : Int := part2F cs.length cs

/-- `get_markers(compressed_sequence)`. -/
def get_markers (s : String) : List Marker := getMarkersL s.toList

/-- `get_length_decompressed_sequence_part1(compressed_sequence)`. -/
def get_length_decompressed_sequence_part1 (s : String) : Int :=
  part1L s.toList

/-- `get_length_decompressed_sequence_part2(compressed_sequence)`. -/
def get_length_decompressed_sequence_part2 (s : String) : Int :=
  part2L s.toList

/-- Recursive well-formedness of an input: every marker found by the scanner
has its declared data region inside the sequence, and the data region itself
is recursively well-formed.  (The source never checks this; it is the
hypothesis under which the calculators' results are non-negative.) -/
inductive RecInBounds : List Char → Prop where
  | mk : ∀ cs : List Char,
      (∀ m ∈ getMarkersL cs, m.end_ + m.n_chars ≤ cs.length) →
      (∀ m ∈ getMarkersL cs, RecInBounds (sliceL cs m)) →
      RecInBounds cs

theorem grabDigits_fst_append_snd (l : List Char) :
    (grabDigits l).1 ++ (grabDigits l).2 = l := by
  induction l with
  | nil => rfl
  | cons c rest ih =>
    by_cases hc : c.isDigit
    · simp [grabDigits, hc, ih]
    · simp [grabDigits, hc]

theorem grabDigits_length (l : List Char) :
    (grabDigits l).1.length + (grabDigits l).2.length = l.length := by
  have h := congrArg List.length (grabDigits_fst_append_snd l)
  simpa using h

theorem parseAfterX_eq {ds1 ds2 r3 : List Char} {tok ch rp : Nat}
    (h : parseAfterX ds1 ds2 r3 = some (tok, ch, rp)) :
    1 ≤ ds2.length ∧ 1 ≤ r3.length ∧ tok = ds1.length + ds2.length + 3 := by
  cases ds2 with
  | nil => simp [parseAfterX] at h
  | cons e es =>
    cases r3 with
    | nil => simp [parseAfterX] at h
    | cons cp t =>
      simp only [parseAfterX] at h
      split at h
      · simp only [Option.some.injEq, Prod.mk.injEq] at h
        obtain ⟨htok, -, -⟩ := h
        simp only [List.length_cons] at htok ⊢
        omega
      · simp at h

theorem parseAfterParen_bounds {ds1 r1 : List Char} {tok ch rp : Nat}
    (h : parseAfterParen ds1 r1 = some (tok, ch, rp)) :
    5 ≤ tok ∧ tok ≤ ds1.length + r1.length + 1 := by
  cases ds1 with
  | nil => simp [parseAfterParen] at h
  | cons d ds =>
    cases r1 with
    | nil => simp [parseAfterParen] at h
    | cons x r2 =>
      simp only [parseAfterParen] at h
      split at h
      · obtain ⟨h2, h3, htok⟩ := parseAfterX_eq h
        have hlen := grabDigits_length r2
        simp only [List.length_cons] at htok ⊢
        omega
      · simp at h

theorem parseMarkerAt_bounds {l : List Char} {tok ch rp : Nat}
    (h : parseMarkerAt l = some (tok, ch, rp)) : 5 ≤ tok ∧ tok ≤ l.length := by
  cases l with
  | nil => simp [parseMarkerAt] at h
  | cons c rest =>
    simp only [parseMarkerAt] at h
    split at h
    · obtain ⟨h5, hle⟩ := parseAfterParen_bounds h
      have hlen := grabDigits_length rest
      simp only [List.length_cons]
      omega
    · simp at h

theorem findMarkerAux_bounds :
    ∀ (l : List Char) (pos : Nat) (m : Marker), findMarkerAux l pos = some m →
      pos ≤ m.start ∧ m.start + 5 ≤ m.end_ ∧ m.end_ ≤ pos + l.length := by
  intro l
  induction l with
  | nil => intro pos m h; simp [findMarkerAux] at h
  | cons c rest ih =>
    intro pos m h
    rw [findMarkerAux] at h
    split at h
    case _ tok ch rp heq =>
      obtain ⟨h5, hle⟩ := parseMarkerAt_bounds heq
      simp only [Option.some.injEq] at h
      subst h
      simp only [List.length_cons] at hle ⊢
      omega
    case _ =>
      have := ih (pos + 1) m h
      simp only [List.length_cons]
      omega

theorem findMarker_bounds {cs : List Char} {i : Nat} {m : Marker}
    (h : findMarker cs i = some m) :
    i ≤ m.start ∧ m.start + 5 ≤ m.end_ ∧ m.end_ ≤ cs.length := by
  by_cases hle : cs.length ≤ i
  · rw [findMarker, List.drop_eq_nil_of_le hle] at h
    simp [findMarkerAux] at h
  · have h2 := findMarkerAux_bounds _ _ _ h
    rw [List.length_drop] at h2
    omega

theorem findMarker_none_of_le {cs : List Char} {i : Nat}
    (h : cs.length ≤ i) : findMarker cs i = none := by
  rw [findMarker, List.drop_eq_nil_of_le h]
  rfl

theorem getMarkersAux_mem_bounds :
    ∀ (fuel : Nat) (cs : List Char) (i : Nat) (m : Marker),
      m ∈ getMarkersAux fuel cs i →
      i ≤ m.start ∧ m.start + 5 ≤ m.end_ ∧ m.end_ ≤ cs.length := by
  intro fuel
  induction fuel with
  | zero => intro cs i m hm; simp [getMarkersAux] at hm
  | succ fuel ih =>
    intro cs i m hm
    rw [getMarkersAux] at hm
    split at hm
    · simp at hm
    case _ m' heq =>
      have hb := findMarker_bounds heq
      rcases List.mem_cons.mp hm with rfl | htail
      · exact hb
      · have := ih cs (m'.end_ + m'.n_chars) m htail
        omega

theorem mem_getMarkersL_bounds {cs : List Char} {m : Marker}
    (hm : m ∈ getMarkersL cs) :
    m.start + 5 ≤ m.end_ ∧ m.end_ ≤ cs.length := by
  have := getMarkersAux_mem_bounds _ _ _ _ hm
  omega

theorem sliceL_length_lt {cs : List Char} {m : Marker}
    (hm : m ∈ getMarkersL cs) : (sliceL cs m).length < cs.length := by
  obtain ⟨h5, hle⟩ := mem_getMarkersL_bounds hm
  simp only [sliceL, List.length_take, List.length_drop]
  have := Nat.min_le_right m.n_chars (cs.length - m.end_)
  omega

theorem part2F_congr :
    ∀ (f : Nat), ∀ (g : Nat) (cs : List Char), cs.length ≤ f → cs.length ≤ g →
      part2F f cs = part2F g cs := by
  intro f
  induction f with
  | zero =>
    intro g cs hf hg
    have hnil : cs = [] := List.length_eq_zero.mp (Nat.le_zero.mp hf)
    subst hnil
    cases g with
    | zero => rfl
    | succ g =>
      simp [part2F, getMarkersL, getMarkersAux, findMarker, findMarkerAux]
  | succ f ih =>
    intro g cs hf hg
    cases g with
    | zero =>
      have hnil : cs = [] := List.length_eq_zero.mp (Nat.le_zero.mp hg)
      subst hnil
      simp [part2F, getMarkersL, getMarkersAux, findMarker, findMarkerAux]
    | succ g =>
      simp only [part2F]
      congr 1
      refine congrArg (fun l : List Int => l.sum) (List.map_congr_left ?_)
      intro m hm
      have hlt := sliceL_length_lt hm
      rw [ih g (sliceL cs m) (by omega) (by omega)]

theorem part2_eq (cs : List Char) :
    part2L cs = (cs.length : Int) +
      ((getMarkersL cs).map (fun m =>
        (m.n_reps : Int) * part2L (sliceL cs m)
          - ((m.n_chars : Int) + (m.length : Int)))).sum := by
  have h0 : part2L cs = part2F (cs.length + 1) cs :=
    part2F_congr cs.length (cs.length + 1) cs le_rfl (Nat.le_succ _)
  rw [h0, part2F]
  congr 1
  refine congrArg (fun l : List Int => l.sum) (List.map_congr_left ?_)
  intro m hm
  have hlt := sliceL_length_lt hm
  rw [part2F_congr cs.length (sliceL cs m).length (sliceL cs m) (by omega) le_rfl]
  rfl

theorem part2L_no_markers {cs : List Char} (h : getMarkersL cs = []) :
    part2L cs = (cs.length : Int) := by
  rw [part2_eq, h]
  simp

theorem sum_map_neg {α : Type} (l : List α) (f : α → Int) :
    (l.map (fun a => -(f a))).sum = -((l.map f).sum) := by
  induction l with
  | nil => simp
  | cons a l ih => simp [ih]; ring

theorem getMarkersAux_sum_le :
    ∀ (fuel : Nat) (cs : List Char) (i : Nat),
      (∀ m ∈ getMarkersAux fuel cs i, m.end_ + m.n_chars ≤ cs.length) →
      getMarkersAux fuel cs i = [] ∨
        ((getMarkersAux fuel cs i).map
          (fun m => (m.length : Int) + (m.n_chars : Int))).sum + (i : Int)
          ≤ (cs.length : Int) := by
  intro fuel
  induction fuel with
  | zero => intro cs i _; left; rfl
  | succ fuel ih =>
    intro cs i h
    rcases hfm : findMarker cs i with _ | m
    · left
      rw [getMarkersAux, hfm]
    · right
      have hb := findMarker_bounds hfm
      have hlist : getMarkersAux (fuel + 1) cs i
          = m :: getMarkersAux fuel cs (m.end_ + m.n_chars) := by
        rw [getMarkersAux, hfm]
      rw [hlist] at h ⊢
      have hm1 : m.end_ + m.n_chars ≤ cs.length := h m (List.mem_cons_self _ _)
      have hlen : m.length = m.end_ - m.start := rfl
      rcases ih cs (m.end_ + m.n_chars)
          (fun m' hm' => h m' (List.mem_cons_of_mem _ hm')) with hnil | hsum
      · rw [hnil]
        simp only [List.map_cons, List.map_nil, List.sum_cons, List.sum_nil]
        omega
      · simp only [List.map_cons, List.sum_cons]
        omega

theorem getMarkersL_sum_le (cs : List Char)
    (h : ∀ m ∈ getMarkersL cs, m.end_ + m.n_chars ≤ cs.length) :
    ((getMarkersL cs).map
      (fun m => (m.length : Int) + (m.n_chars : Int))).sum ≤ (cs.length : Int) := by
  rcases getMarkersAux_sum_le (cs.length + 1) cs 0 h with hnil | hsum
  · rw [getMarkersL, hnil]
    simp
  · simpa using hsum

theorem part1L_nonneg (cs : List Char)
    (h : ∀ m ∈ getMarkersL cs, m.end_ + m.n_chars ≤ cs.length) :
    0 ≤ part1L cs := by
  rw [part1L]
  have key : -(((getMarkersL cs).map
      (fun m => (m.length : Int) + (m.n_chars : Int))).sum)
      ≤ ((getMarkersL cs).map get_length_decompressed_marker).sum := by
    rw [← sum_map_neg]
    apply List.sum_le_sum
    intro m _
    have hmul : (0 : Int) ≤ (m.n_chars : Int) * (m.n_reps : Int) := by positivity
    simp only [get_length_decompressed_marker]
    linarith
  have hsum := getMarkersL_sum_le cs h
  linarith

theorem part2L_nonneg :
    ∀ (n : Nat) (cs : List Char), cs.length ≤ n → RecInBounds cs →
      0 ≤ part2L cs := by
  intro n
  induction n with
  | zero =>
    intro cs hn _
    have hnil : cs = [] := List.length_eq_zero.mp (Nat.le_zero.mp hn)
    subst hnil
    simp [part2L, part2F]
  | succ n ih =>
    intro cs hn hr
    obtain ⟨_, hb, hrec⟩ := hr
    rw [part2_eq]
    have key : -(((getMarkersL cs).map
        (fun m => (m.length : Int) + (m.n_chars : Int))).sum)
        ≤ ((getMarkersL cs).map (fun m =>
          (m.n_reps : Int) * part2L (sliceL cs m)
            - ((m.n_chars : Int) + (m.length : Int)))).sum := by
      rw [← sum_map_neg]
      apply List.sum_le_sum
      intro m hm
      have hlt := sliceL_length_lt hm
      have hp : 0 ≤ part2L (sliceL cs m) :=
        ih (sliceL cs m) (by omega) (hrec m hm)
      have hmul : 0 ≤ (m.n_reps : Int) * part2L (sliceL cs m) :=
        mul_nonneg (by positivity) hp
      linarith
    have hsum := getMarkersL_sum_le cs hb
    linarith

theorem recInBounds_of_no_markers (cs : List Char)
    (h : getMarkersL cs = []) : RecInBounds cs := by
  refine RecInBounds.mk cs ?_ ?_ <;>
    · intro m hm
      rw [h] at hm
      cases hm

theorem grabDigits_all_digits {ds : List Char} (h : ∀ c ∈ ds, c.isDigit = true)
    {c : Char} (hc : c.isDigit = false) (r : List Char) :
    grabDigits (ds ++ c :: r) = (ds, c :: r) := by
  induction ds with
  | nil => simp [grabDigits, hc]
  | cons d ds ih =>
    have hd : d.isDigit = true := h d (List.mem_cons_self _ _)
    simp [grabDigits, hd, ih (fun e he => h e (List.mem_cons_of_mem _ he))]

theorem getMarkersAux_chain' :
    ∀ (fuel : Nat) (cs : List Char) (i : Nat),
      (getMarkersAux fuel cs i).Chain' (fun a b => a.end_ + a.n_chars ≤ b.start) := by
  intro fuel
  induction fuel with
  | zero => intro cs i; simp [getMarkersAux]
  | succ fuel ih =>
    intro cs i
    rw [getMarkersAux]
    split
    · exact List.chain'_nil
    case _ m heq =>
      rw [List.chain'_cons']
      refine ⟨?_, ih cs (m.end_ + m.n_chars)⟩
      intro y hy
      have hmem := List.mem_of_mem_head? hy
      have := getMarkersAux_mem_bounds _ _ _ _ hmem
      omega

/-! ## Claim theorems -/

/-- C1 (counterexample): the recursive length calculator applied to
`"X(8x2)(3x3)ABCY"` does not return 21, contrary to the claim.  The `(8x2)`
marker's data `"(3x3)ABC"` recursively expands to 9, doubled to 18, plus the
surrounding `X` and `Y` gives 20. -/
theorem claim_C1_counterexample :
    get_length_decompressed_sequence_part2 "X(8x2)(3x3)ABCY" < 21 := by decide

/-- C1 (amended): the recursive length calculator applied to the string
`"X(8x2)(3x3)ABCY"` returns 20. -/
theorem claim_C1 :
    get_length_decompressed_sequence_part2 "X(8x2)(3x3)ABCY" = 20 := by decide

/-- C2 (counterexample): `recursive_length(s) >= flat_length(s)` fails.  On
the fully in-bounds input `"(6x2)(1x1)A"` the recursive result (2) is
strictly below the flat result (12), because the inner `(1x1)` marker shrinks
the data region.  The equality clause also fails as stated: on `"(5x2)ab"`
the single marker's data region `"ab"` contains no marker token, yet the two
calculators disagree (the marker's declared length overruns the input). -/
theorem claim_C2_counterexample :
    (get_length_decompressed_sequence_part2 "(6x2)(1x1)A"
        < get_length_decompressed_sequence_part1 "(6x2)(1x1)A") ∧
      (getMarkersL (sliceL "(5x2)ab".toList ⟨0, 5, 5, 2⟩) = [] ∧
        get_markers "(5x2)ab" = [⟨0, 5, 5, 2⟩] ∧
        get_length_decompressed_sequence_part2 "(5x2)ab"
          < get_length_decompressed_sequence_part1 "(5x2)ab") := by decide

/-- C2 (amended): if every marker found in `s` has its data region within
bounds and that data region contains no marker token, then the recursive and
flat calculators agree.  (The general inequality `recursive >= flat` does not
hold.) -/
theorem claim_C2 (s : String)
    (h : ∀ m ∈ get_markers s,
      m.end_ + m.n_chars ≤ s.toList.length ∧ getMarkersL (sliceL s.toList m) = []) :
    get_length_decompressed_sequence_part2 s
      = get_length_decompressed_sequence_part1 s := by
  unfold get_length_decompressed_sequence_part2 get_length_decompressed_sequence_part1
  rw [part2_eq]
  unfold part1L
  have hmap : (getMarkersL s.toList).map (fun m =>
      (m.n_reps : Int) * part2L (sliceL s.toList m)
        - ((m.n_chars : Int) + (m.length : Int)))
      = (getMarkersL s.toList).map get_length_decompressed_marker := by
    refine List.map_congr_left ?_
    intro m hm
    obtain ⟨hbnd, hnomk⟩ := h m hm
    have hslice : part2L (sliceL s.toList m) = ((sliceL s.toList m).length : Int) :=
      part2L_no_markers hnomk
    have hlen2 : (sliceL s.toList m).length = m.n_chars := by
      simp only [sliceL, List.length_take, List.length_drop]
      exact Nat.min_eq_left (by omega)
    rw [hslice, hlen2]
    simp only [get_length_decompressed_marker]
    ring
  rw [hmap]
  ring

/-- C2 (witness): `"A(2x2)BCD(2x2)EFG"` satisfies the amended hypothesis and
both calculators return the same value on it. -/
theorem claim_C2_witness :
    (∀ m ∈ get_markers "A(2x2)BCD(2x2)EFG",
        m.end_ + m.n_chars ≤ "A(2x2)BCD(2x2)EFG".toList.length ∧
          getMarkersL (sliceL "A(2x2)BCD(2x2)EFG".toList m) = []) ∧
      get_length_decompressed_sequence_part2 "A(2x2)BCD(2x2)EFG"
        = get_length_decompressed_sequence_part1 "A(2x2)BCD(2x2)EFG" :=
  ⟨by decide, claim_C2 "A(2x2)BCD(2x2)EFG" (by decide)⟩

/-- C3: the flat length calculator returns 11 on `"A(2x2)BCD(2x2)EFG"`,
6 on `"(6x1)(1x3)A"` (the marker-like `(1x3)` inside the first marker's data
region is not treated as a marker), and 18 on `"X(8x2)(3x3)ABCY"`. -/
theorem claim_C3 :
    get_length_decompressed_sequence_part1 "A(2x2)BCD(2x2)EFG" = 11 ∧
      get_length_decompressed_sequence_part1 "(6x1)(1x3)A" = 6 ∧
      get_length_decompressed_sequence_part1 "X(8x2)(3x3)ABCY" = 18 := by decide

/-- C4: the recursive length calculator returns 9 on `"(3x3)XYZ"`, 241920 on
`"(27x12)(20x12)(13x14)(7x10)(1x12)A"`, and 445 on
`"(25x3)(3x3)ABC(2x3)XY(5x2)PQRSTX(18x9)(3x2)TWO(5x7)SEVEN"`. -/
theorem claim_C4 :
    get_length_decompressed_sequence_part2 "(3x3)XYZ" = 9 ∧
      get_length_decompressed_sequence_part2 "(27x12)(20x12)(13x14)(7x10)(1x12)A"
        = 241920 ∧
      get_length_decompressed_sequence_part2
        "(25x3)(3x3)ABC(2x3)XY(5x2)PQRSTX(18x9)(3x2)TWO(5x7)SEVEN" = 445 := by
  decide

/-- C5: for every input string the scanner's markers come left-to-right and
non-overlapping — each subsequent marker starts at or after the previous
marker's `end + chars` — and every marker satisfies `start < end`. -/
theorem claim_C5 (s : String) :
    (get_markers s).Chain' (fun a b => a.end_ + a.n_chars ≤ b.start) ∧
      ∀ m ∈ get_markers s, m.start < m.end_ := by
  constructor
  · exact getMarkersAux_chain' _ _ _
  · intro m hm
    have := mem_getMarkersL_bounds hm
    omega

/-- C5 (witness): instantiated on `"A(2x2)BCD(2x2)EFG"`, whose first marker
is `(2x2)` at offsets 1-6. -/
theorem claim_C5_witness :
    (get_markers "A(2x2)BCD(2x2)EFG").Chain'
        (fun a b => a.end_ + a.n_chars ≤ b.start) ∧
      (⟨1, 6, 2, 2⟩ : Marker).start < (⟨1, 6, 2, 2⟩ : Marker).end_ :=
  ⟨(claim_C5 "A(2x2)BCD(2x2)EFG").1,
    (claim_C5 "A(2x2)BCD(2x2)EFG").2 ⟨1, 6, 2, 2⟩ (by decide)⟩

/-- C6 (counterexample): on `"(5x2)ab"` the only marker declares
`end + chars = 10 > 7 = len`, a truncated marker, yet neither calculator
fails: the embedded code is total and both return plain integers (7 and 1),
contradicting the claim that a FormatError is surfaced with no partial
result. -/
theorem claim_C6_counterexample :
    get_markers "(5x2)ab" = [⟨0, 5, 5, 2⟩] ∧
      "(5x2)ab".toList.length < 5 + 5 ∧
      get_length_decompressed_sequence_part1 "(5x2)ab" = 7 ∧
      get_length_decompressed_sequence_part2 "(5x2)ab" = 1 := by decide

/-- C6 (amended): truncated markers are not detected.  For any marker whose
declared data length overruns the sequence, the recursive calculator's data
region is silently clamped to the end of the sequence (Python slice
semantics): its real length is `len - end`, strictly below the declared
`chars`; both calculators still return an integer result. -/
theorem claim_C6 (cs : List Char) (m : Marker) (hm : m ∈ getMarkersL cs)
    (htr : cs.length < m.end_ + m.n_chars) :
    (sliceL cs m).length = cs.length - m.end_ ∧
      cs.length - m.end_ < m.n_chars := by
  have hb := mem_getMarkersL_bounds hm
  simp only [sliceL, List.length_take, List.length_drop]
  exact ⟨Nat.min_eq_right (by omega), by omega⟩

/-- C6 (witness): the truncated marker of `"(5x2)ab"` gets the clamped
2-character data region `"ab"` instead of its declared 5 characters. -/
theorem claim_C6_witness :
    (sliceL "(5x2)ab".toList ⟨0, 5, 5, 2⟩).length
        = "(5x2)ab".toList.length - (⟨0, 5, 5, 2⟩ : Marker).end_ ∧
      "(5x2)ab".toList.length - (⟨0, 5, 5, 2⟩ : Marker).end_
        < (⟨0, 5, 5, 2⟩ : Marker).n_chars :=
  claim_C6 "(5x2)ab".toList ⟨0, 5, 5, 2⟩ (by decide) (by decide)

/-- C7 (counterexample): a count digit run far beyond any machine-integer
range (here `2^64`) raises nothing: the scanner returns a normal marker
carrying the exact value — Python integers are unbounded, there is no
FormatError path and no wrapping, contradicting the claim. -/
theorem claim_C7_counterexample :
    get_markers "(18446744073709551616x1)"
        = [⟨0, 24, 18446744073709551616, 1⟩] ∧
      (18446744073709551616 : Nat) = 2 ^ 64 := by decide

/-- C7 (amended): digit runs of any length are parsed to their exact decimal
value with arbitrary-precision semantics: for every non-empty all-digit run
`ds`, scanning `"(" ++ ds ++ "x1)"` yields exactly one marker whose count is
the exact value of `ds`; the scanner never fails and never wraps. -/
theorem claim_C7 (ds : List Char) (h1 : ds ≠ []) (h2 : ∀ c ∈ ds, c.isDigit = true) :
    getMarkersL ('(' :: (ds ++ 'x' :: '1' :: ')' :: [])) =
      [⟨0, ds.length + 4, digitsVal ds, 1⟩] := by
  obtain ⟨d, ds', rfl⟩ := List.exists_cons_of_ne_nil h1
  have hgrab : grabDigits ((d :: ds') ++ 'x' :: '1' :: ')' :: [])
      = (d :: ds', 'x' :: '1' :: ')' :: []) :=
    grabDigits_all_digits h2 (by decide) _
  have hparse : parseMarkerAt ('(' :: ((d :: ds') ++ 'x' :: '1' :: ')' :: []))
      = some ((d :: ds').length + 4, digitsVal (d :: ds'), 1) := by
    have hstep : parseMarkerAt ('(' :: ((d :: ds') ++ 'x' :: '1' :: ')' :: []))
        = parseAfterParen (grabDigits ((d :: ds') ++ 'x' :: '1' :: ')' :: [])).1
            (grabDigits ((d :: ds') ++ 'x' :: '1' :: ')' :: [])).2 := rfl
    rw [hstep, hgrab]
    rfl
  have hlen : ('(' :: ((d :: ds') ++ 'x' :: '1' :: ')' :: [])).length
      = (d :: ds').length + 4 := by
    simp only [List.length_cons, List.length_append, List.length_nil]
  have hfind : findMarker ('(' :: ((d :: ds') ++ 'x' :: '1' :: ')' :: [])) 0
      = some ⟨0, (d :: ds').length + 4, digitsVal (d :: ds'), 1⟩ := by
    show findMarkerAux ('(' :: ((d :: ds') ++ 'x' :: '1' :: ')' :: [])) 0 = _
    rw [findMarkerAux, hparse]
    simp
  have hnone : findMarker ('(' :: ((d :: ds') ++ 'x' :: '1' :: ')' :: []))
      ((d :: ds').length + 4 + digitsVal (d :: ds')) = none :=
    findMarker_none_of_le (by omega)
  rw [getMarkersL, hlen]
  rw [show ((d :: ds').length + 4) + 1 = (((d :: ds').length + 3) + 1) + 1 from rfl]
  simp only [getMarkersAux, hfind, hnone]

/-- C7 (witness): the amended theorem applied to the 20-digit run whose
value is `2^64 = 18446744073709551616`. -/
theorem claim_C7_witness :
    ("18446744073709551616".toList ≠ [] ∧
        (∀ c ∈ "18446744073709551616".toList, c.isDigit = true) ∧
        digitsVal "18446744073709551616".toList = 2 ^ 64) ∧
      getMarkersL ('(' :: ("18446744073709551616".toList ++ 'x' :: '1' :: ')' :: []))
        = [⟨0, "18446744073709551616".toList.length + 4,
            digitsVal "18446744073709551616".toList, 1⟩] :=
  ⟨⟨by decide, by decide, by decide⟩,
    claim_C7 "18446744073709551616".toList (by decide) (by decide)⟩

/-- C8: whenever the scanner finds zero markers, both calculators return the
input's own length. -/
theorem claim_C8 (s : String) (h : get_markers s = []) :
    get_length_decompressed_sequence_part1 s = (s.toList.length : Int) ∧
      get_length_decompressed_sequence_part2 s = (s.toList.length : Int) := by
  constructor
  · unfold get_length_decompressed_sequence_part1 part1L
    rw [show getMarkersL s.toList = [] from h]
    simp
  · exact part2L_no_markers h

/-- C8 (witness): `"ADVENT"` has no markers and both calculators return its
length, 6. -/
theorem claim_C8_witness :
    get_markers "ADVENT" = [] ∧
      get_length_decompressed_sequence_part1 "ADVENT"
        = ("ADVENT".toList.length : Int) ∧
      get_length_decompressed_sequence_part2 "ADVENT"
        = ("ADVENT".toList.length : Int) :=
  ⟨by decide, (claim_C8 "ADVENT" (by decide)).1, (claim_C8 "ADVENT" (by decide)).2⟩

/-- C9 (counterexample): the calculators do not always return a non-negative
integer: on `"(5x0)"` (a truncated marker with repeat count 0) both return
-5. -/
theorem claim_C9_counterexample :
    get_length_decompressed_sequence_part1 "(5x0)" < 0 ∧
      get_length_decompressed_sequence_part2 "(5x0)" < 0 := by decide

/-- C9 (amended): each calculator returns an integer, and the result is
non-negative whenever every marker's data region (recursively, at every
expansion level) lies within the bounds of its sequence; on truncated inputs
the result may be negative. -/
theorem claim_C9 (s : String) (h : RecInBounds s.toList) :
    0 ≤ get_length_decompressed_sequence_part1 s ∧
      0 ≤ get_length_decompressed_sequence_part2 s := by
  refine ⟨?_, part2L_nonneg s.toList.length s.toList le_rfl h⟩
  obtain ⟨_, hb, _⟩ := h
  exact part1L_nonneg s.toList hb

/-- C9 (witness): `"(3x3)XYZ"` is recursively in bounds and both calculators
return non-negative values on it. -/
theorem claim_C9_witness :
    RecInBounds "(3x3)XYZ".toList ∧
      0 ≤ get_length_decompressed_sequence_part1 "(3x3)XYZ" ∧
      0 ≤ get_length_decompressed_sequence_part2 "(3x3)XYZ" := by
  have hrib : RecInBounds "(3x3)XYZ".toList := by
    refine RecInBounds.mk _ (by decide) ?_
    intro m hm
    have hmm : getMarkersL "(3x3)XYZ".toList = [⟨0, 5, 3, 3⟩] := by decide
    rw [hmm] at hm
    simp only [List.mem_singleton] at hm
    subst hm
    exact recInBounds_of_no_markers _ (by decide)
  exact ⟨hrib, (claim_C9 "(3x3)XYZ" hrib).1, (claim_C9 "(3x3)XYZ" hrib).2⟩

/-- C10: the recursive calculator's termination skeleton — every marker's
data region (each recursive call's argument) is strictly shorter than the
enclosing sequence, and a sequence with no markers returns its own length as
the base case. -/
theorem claim_C10 (cs : List Char) :
    (∀ m ∈ getMarkersL cs, (sliceL cs m).length < cs.length) ∧
      (getMarkersL cs = [] → part2L cs = (cs.length : Int)) :=
  ⟨fun _ hm => sliceL_length_lt hm, fun h => part2L_no_markers h⟩

/-- C10 (witness): the `(8x2)` marker of `"X(8x2)(3x3)ABCY"` induces a
recursive call on an 8-character substring of the 15-character input, and the
marker-free `"ADVENT"` returns its own length. -/
theorem claim_C10_witness :
    (sliceL "X(8x2)(3x3)ABCY".toList ⟨1, 6, 8, 2⟩).length
        < "X(8x2)(3x3)ABCY".toList.length ∧
      part2L "ADVENT".toList = ("ADVENT".toList.length : Int) :=
  ⟨(claim_C10 "X(8x2)(3x3)ABCY".toList).1 ⟨1, 6, 8, 2⟩ (by decide),
    (claim_C10 "ADVENT".toList).2 (by decide)⟩

end Day09
